import Mathlib

/-!
Verification development for the cryptographic core of the bitwarden SDK.

Bytes are modelled as `Nat` values below 256, byte strings as `List Nat`.
The hash primitives (SHA-256, HMAC-SHA256, PBKDF2, HKDF-expand, base64)
are implemented concretely, following their standards, because the
repository's observable outputs (verification hashes, MACs) are defined
through them.  The AES-256 block operation is an external library the
repository calls into; it is modelled as a keyed permutation of 16-byte
blocks (see `encBlock`), while the CBC chaining, PKCS7 padding and
MAC-then-decrypt envelope logic around it follow the specification.
-/

/-- Addition modulo 2^32, the word arithmetic of SHA-256. -/
def add32 (a b : Nat) : Nat := (a + b) % 4294967296

/-- Right rotation of a 32-bit word by `n` places. -/
def rotr (n x : Nat) : Nat := x / 2 ^ n + x % 2 ^ n * 2 ^ (32 - n)

/-- Bitwise complement of a 32-bit word. -/
def not32 (x : Nat) : Nat := 4294967295 ^^^ x

/-- Pointwise xor of two byte strings; the result has the shorter length. -/
def xorBytes (a b : List Nat) : List Nat := List.zipWith (fun x y => x ^^^ y) a b

/-- Big-endian bytes of a 32-bit word. -/
def be32 (w : Nat) : List Nat :=
  [w / 16777216 % 256, w / 65536 % 256, w / 256 % 256, w % 256]

/-- Big-endian bytes of a 64-bit word. -/
def be64 (w : Nat) : List Nat :=
  [w / 72057594037927936 % 256, w / 281474976710656 % 256, w / 1099511627776 % 256,
   w / 4294967296 % 256, w / 16777216 % 256, w / 65536 % 256, w / 256 % 256, w % 256]

/-- Structural worker for `chunksOf`: the fuel bounds the recursion depth and
is chosen as the list length, which suffices for any positive chunk size. -/
def chunksOfFuel (n : Nat) : Nat → List α → List (List α)
  | _, [] => []
  | 0, _ :: _ => []
  | fuel + 1, x :: xs =>
      (x :: xs).take n :: chunksOfFuel n fuel ((x :: xs).drop n)

/-- Split a list into consecutive chunks of `n` elements (last one may be
short); defined by structural recursion so that it computes by kernel
reduction. -/
def chunksOf (n : Nat) (l : List α) : List (List α) :=
  if n = 0 then [] else chunksOfFuel n l.length l

/-- The eight 32-bit working variables of the SHA-256 compression function. -/
structure Words8 where
  a : Nat
  b : Nat
  c : Nat
  d : Nat
  e : Nat
  f : Nat
  g : Nat
  h : Nat

/-- SHA-256 initial hash value (FIPS 180-4). -/
def shaInit : Words8 :=
  ⟨1779033703, 3144134277, 1013904242, 2773480762,
   1359893119, 2600822924, 528734635, 1541459225⟩

/-- SHA-256 round constants (FIPS 180-4). -/
def shaK : List Nat :=
  [1116352408, 1899447441, 3049323471, 3921009573, 961987163,
   1508970993, 2453635748, 2870763221, 3624381080, 310598401,
   607225278, 1426881987, 1925078388, 2162078206, 2614888103,
   3248222580, 3835390401, 4022224774, 264347078, 604807628,
   770255983, 1249150122, 1555081692, 1996064986, 2554220882,
   2821834349, 2952996808, 3210313671, 3336571891, 3584528711,
   113926993, 338241895, 666307205, 773529912, 1294757372,
   1396182291, 1695183700, 1986661051, 2177026350, 2456956037,
   2730485921, 2820302411, 3259730800, 3345764771, 3516065817,
   3600352804, 4094571909, 275423344, 430227734, 506948616,
   659060556, 883997877, 958139571, 1322822218, 1537002063,
   1747873779, 1955562222, 2024104815, 2227730452, 2361852424,
   2428436474, 2756734187, 3204031479, 3329325298]

/-- Message-schedule small sigma 0. -/
def ssig0 (w : Nat) : Nat := rotr 7 w ^^^ rotr 18 w ^^^ w / 8

/-- Message-schedule small sigma 1. -/
def ssig1 (w : Nat) : Nat := rotr 17 w ^^^ rotr 19 w ^^^ w / 1024

/-- One SHA-256 compression round, consuming a round constant and a schedule word. -/
def shaStep (s : Words8) (kw : Nat × Nat) : Words8 :=
  let s1 := rotr 6 s.e ^^^ rotr 11 s.e ^^^ rotr 25 s.e
  let ch := (s.e &&& s.f) ^^^ (not32 s.e &&& s.g)
  let t1 := add32 (add32 (add32 s.h s1) (add32 ch kw.1)) kw.2
  let s0 := rotr 2 s.a ^^^ rotr 13 s.a ^^^ rotr 22 s.a
  let maj := (s.a &&& s.b) ^^^ (s.a &&& s.c) ^^^ (s.b &&& s.c)
  let t2 := add32 s0 maj
  ⟨add32 t1 t2, s.a, s.b, s.c, add32 s.d t1, s.e, s.f, s.g⟩

/-- Group bytes into big-endian 32-bit words. -/
def bytesToWords : List Nat → List Nat
  | b0 :: b1 :: b2 :: b3 :: rest =>
      (((b0 * 256 + b1) * 256 + b2) * 256 + b3) :: bytesToWords rest
  | _ => []

/-- Extend the 16 block words to the 64-word schedule.  The accumulator is kept
most-recent-first so the four taps are constant-offset lookups. -/
def scheduleExt : Nat → List Nat → List Nat
  | 0, acc => acc.reverse
  | n + 1, acc =>
    let w := add32 (add32 (ssig1 (acc.getD 1 0)) (acc.getD 6 0))
                   (add32 (ssig0 (acc.getD 14 0)) (acc.getD 15 0))
    scheduleExt n (w :: acc)

/-- The 64-word message schedule of one 64-byte block. -/
def shaSchedule (block : List Nat) : List Nat :=
  scheduleExt 48 (bytesToWords block).reverse

/-- SHA-256 compression of one 64-byte block into the chaining state. -/
def shaCompress (s : Words8) (block : List Nat) : Words8 :=
  let t := List.foldl shaStep s (List.zip shaK (shaSchedule block))
  ⟨add32 s.a t.a, add32 s.b t.b, add32 s.c t.c, add32 s.d t.d,
   add32 s.e t.e, add32 s.f t.f, add32 s.g t.g, add32 s.h t.h⟩

/-- FIPS 180-4 padding: a 0x80 byte, zeros, and the 64-bit bit length. -/
def shaPad (msg : List Nat) : List Nat :=
  msg ++ 128 :: List.replicate ((64 + 55 - msg.length % 64) % 64) 0 ++ be64 (msg.length * 8)

/-- Serialize the final state to the 32 digest bytes. -/
def stateBytes (s : Words8) : List Nat :=
  be32 s.a ++ be32 s.b ++ be32 s.c ++ be32 s.d ++ be32 s.e ++ be32 s.f ++ be32 s.g ++ be32 s.h

/-- SHA-256 of a byte string. -/
def sha256 (msg : List Nat) : List Nat :=
  stateBytes (List.foldl shaCompress shaInit (chunksOf 64 (shaPad msg)))

/-- A SHA-256 digest is 32 bytes. -/
theorem sha256_length (msg : List Nat) : (sha256 msg).length = 32 := by
  simp [sha256, stateBytes, be32]

/-- HMAC-SHA256 (RFC 2104): keys longer than the 64-byte block are hashed first,
then padded with zeros to the block size. -/
def hmacSha256 (key msg : List Nat) : List Nat :=
  let k0 := if 64 < key.length then sha256 key else key
  let kb := k0 ++ List.replicate (64 - k0.length) 0
  let ipad := kb.map (fun b => b ^^^ 54)
  let opad := kb.map (fun b => b ^^^ 92)
  sha256 (opad ++ sha256 (ipad ++ msg))

/-- An HMAC-SHA256 tag is 32 bytes. -/
theorem hmacSha256_length (key msg : List Nat) : (hmacSha256 key msg).length = 32 := by
  simp [hmacSha256, sha256_length]

/-- The xor-accumulation loop of PBKDF2: `u` is the previous `U_i`, `acc` the
running xor of all of them. -/
def pbkdf2Loop (pw : List Nat) (u acc : List Nat) : Nat → List Nat
  | 0 => acc
  | n + 1 =>
    let u' := hmacSha256 pw u
    pbkdf2Loop pw u' (xorBytes acc u') n

/-- PBKDF2-HMAC-SHA256 with a 32-byte output (one hash block), mirroring the
`pbkdf2` helper of `util.rs`: the first block index is 1 and the accumulator
starts from the zeroed output buffer. -/
def pbkdf2 (password salt : List Nat) (rounds : Nat) : List Nat :=
  pbkdf2Loop password (salt ++ be32 1) (List.replicate 32 0) rounds

/-- The standard base64 alphabet. -/
def base64Alphabet : List Char :=
  ['A', 'B', 'C', 'D', 'E', 'F', 'G', 'H', 'I', 'J', 'K', 'L', 'M', 'N', 'O', 'P', 'Q', 'R', 'S', 'T', 'U', 'V', 'W', 'X', 'Y', 'Z', 'a', 'b', 'c', 'd', 'e', 'f', 'g', 'h', 'i', 'j', 'k', 'l', 'm', 'n', 'o', 'p', 'q', 'r', 's', 't', 'u', 'v', 'w', 'x', 'y', 'z', '0', '1', '2', '3', '4', '5', '6', '7', '8', '9', '+', '/']

/-- One base64 output character. -/
def b64c (n : Nat) : Char := base64Alphabet.getD n 'A'

/-- Standard base64 encoding with padding, three input bytes to four output
characters, mirroring the `STANDARD` engine of the base64 crate. -/
def base64Chars : List Nat → List Char
  | [] => []
  | [a] => [b64c (a / 4), b64c (a % 4 * 16), '=', '=']
  | [a, b] => [b64c (a / 4), b64c (a % 4 * 16 + b / 16), b64c (b % 16 * 4), '=']
  | a :: b :: d :: rest =>
      b64c (a / 4) :: b64c (a % 4 * 16 + b / 16) :: b64c (b % 16 * 4 + d / 64) ::
        b64c (d % 64) :: base64Chars rest

/-- Standard, padded base64 encoding of a byte string as a Lean string. -/
def encodeBase64 (bs : List Nat) : String := String.mk (base64Chars bs)

/-- Error kinds of the crypto core, from the crate's error enum as used by the
sources under study. -/
inductive CryptoError where
  | InvalidKey : CryptoError
  | InvalidMac : CryptoError
  | InvalidPadding : CryptoError
  | InvalidKeyLen : CryptoError
  | InvalidUtf8 : CryptoError
deriving DecidableEq, Repr

/-- Errors of the vault layer (`bitwarden::error::Error`), restricted to the
variants the cipher operations produce. -/
inductive BwError where
  | VaultLocked : BwError
  | Crypto : CryptoError → BwError
deriving DecidableEq, Repr

/-- A symmetric crypto key: a 256-bit encryption key and an optional 256-bit
MAC key, as in `SymmetricCryptoKey`. -/
structure SymmetricCryptoKey where
  key : List Nat
  mac_key : Option (List Nat)
deriving DecidableEq, Repr

/-- Serialization of a symmetric key (`SymmetricCryptoKey::to_vec`): the enc
half followed by the MAC half when present. -/
def SymmetricCryptoKey.to_vec (k : SymmetricCryptoKey) : List Nat :=
  match k.mac_key with
  | some m => k.key ++ m
  | none => k.key

/-- Deserialization of a symmetric key (`TryFrom` for `SymmetricCryptoKey`):
64 bytes give both halves, 32 bytes a lone enc key, anything else is an
invalid-key-length error. -/
def SymmetricCryptoKey.fromBytes (v : List Nat) : Except CryptoError SymmetricCryptoKey :=
  if v.length = 64 then .ok ⟨v.take 32, some (v.drop 32)⟩
  else if v.length = 32 then .ok ⟨v, none⟩
  else .error .InvalidKeyLen

/-- Modelled from the spec: the AES-256 block operation is an external library
primitive; the envelope only needs it to be a length-preserving keyed
permutation of 16-byte blocks, so it is modelled as the xor of the block with
a key-derived 16-byte pad (an involution, hence trivially a permutation). -/
def blockPad (key : List Nat) : List Nat := (sha256 key).take 16

/-- The modelled block operation, an involution on 16-byte blocks. -/
def encBlock (key block : List Nat) : List Nat := xorBytes block (blockPad key)

/-- CBC encryption over 16-byte blocks: each plaintext block is xored with the
previous ciphertext block (initially the IV) before the block operation. -/
def cbcEnc (key : List Nat) : List Nat → List Nat → List Nat
  | _, [] => []
  | prev, m :: ms =>
      let c := encBlock key (xorBytes ((m :: ms).take 16) prev)
      c ++ cbcEnc key c ((m :: ms).drop 16)
termination_by _ l => l.length
decreasing_by simp only [List.drop_succ_cons, List.length_cons, List.length_drop]; omega

/-- CBC decryption, the inverse chaining. -/
def cbcDec (key : List Nat) : List Nat → List Nat → List Nat
  | _, [] => []
  | prev, c :: cs =>
      let blk := (c :: cs).take 16
      xorBytes (encBlock key blk) prev ++ cbcDec key blk ((c :: cs).drop 16)
termination_by _ l => l.length
decreasing_by simp only [List.drop_succ_cons, List.length_cons, List.length_drop]; omega

/-- PKCS7 padding to a multiple of 16 bytes: always pads, with 1 to 16 copies
of the pad length. -/
def pkcs7Pad (b : List Nat) : List Nat :=
  let n := 16 - b.length % 16
  b ++ List.replicate n n

/-- PKCS7 unpadding with full validity check: the last byte names the pad
length, which must be between 1 and 16, fit in the message, and fill the tail. -/
def pkcs7Unpad (b : List Nat) : Except CryptoError (List Nat) :=
  match b.getLast? with
  | none => .error .InvalidPadding
  | some n =>
      if 1 ≤ n ∧ n ≤ 16 ∧ n ≤ b.length ∧ (b.drop (b.length - n)).all (· = n) then
        .ok (b.take (b.length - n))
      else .error .InvalidPadding

/-- Modelled from the spec: the authenticated envelope (`EncString`, variant
`AesCbc256_HmacSha256_B64`) — a version-tagged container of IV, ciphertext and
HMAC-SHA256 tag over IV and ciphertext.  The textual wire form is out of the
claims' scope, so the container holds the raw parts. -/
structure EncString where
  iv : List Nat
  data : List Nat
  mac : List Nat
deriving DecidableEq, Repr

/-- Modelled from the spec: `EncString::encrypt_aes256_hmac` — CBC-encrypt the
PKCS7-padded plaintext under a fresh IV (the IV is an explicit parameter,
standing for the injected randomness), then MAC IV and ciphertext. -/
def encryptAes256Hmac (data mac_key enc_key iv : List Nat) : EncString :=
  let ct := cbcEnc enc_key iv (pkcs7Pad data)
  ⟨iv, ct, hmacSha256 mac_key (iv ++ ct)⟩

/-- Modelled from the spec: decryption of the authenticated envelope — fails
with invalid MAC when the key has no MAC half, recomputes the HMAC over IV and
ciphertext and compares before any decryption, then CBC-decrypts and strips
the padding. -/
def EncString.decrypt_with_key (es : EncString) (key : SymmetricCryptoKey) :
    Except CryptoError (List Nat) :=
  match key.mac_key with
  | none => .error .InvalidMac
  | some mkey =>
      if hmacSha256 mkey (es.iv ++ es.data) ≠ es.mac then .error .InvalidMac
      else if es.data.length % 16 ≠ 0 ∨ es.data.length = 0 then .error .InvalidPadding
      else pkcs7Unpad (cbcDec key.key es.iv es.data)

/-- Modelled from the spec: `KeyEncryptable` for byte strings — fails with
invalid MAC when the key lacks its MAC half, else builds the envelope. -/
def encryptBytesWithKey (b : List Nat) (key : SymmetricCryptoKey) (iv : List Nat) :
    Except CryptoError EncString :=
  match key.mac_key with
  | none => .error .InvalidMac
  | some mk => .ok (encryptAes256Hmac b mk key.key iv)

/-- HKDF-SHA256 expand block chain (RFC 5869): block `i` MACs the previous
block, the info string and the counter byte. -/
def hkdfExpandLoop (prk info prev : List Nat) (i : Nat) : Nat → List Nat
  | 0 => []
  | n + 1 =>
      let t := hmacSha256 prk (prev ++ info ++ [i])
      t ++ hkdfExpandLoop prk info t (i + 1) n

/-- The `hkdf_expand` helper of `util.rs`: expand-only HKDF from a
pseudorandom key of at least hash length, to `outLen` bytes. -/
def hkdf_expand (prk info : List Nat) (outLen : Nat) : Except CryptoError (List Nat) :=
  if prk.length < 32 then .error .InvalidKeyLen
  else if 255 * 32 < outLen then .error .InvalidKeyLen
  else .ok ((hkdfExpandLoop prk info [] 1 ((outLen + 31) / 32)).take outLen)

/-- Modelled from the spec: `stretch_kdf_key` — expand-only HKDF from the
master key into an enc half and a MAC half under the domain-separation info
strings "enc" and "mac"; the stretched key always carries both halves. -/
def stretch_kdf_key (k : SymmetricCryptoKey) : Except CryptoError SymmetricCryptoKey := do
  let ek ← hkdf_expand k.key [101, 110, 99] 32
  let mk ← hkdf_expand k.key [109, 97, 99] 32
  .ok ⟨ek, some mk⟩

/-- The domain-separation discriminant for verification hashes
(`HashPurpose`, with the enum values assigned in the source). -/
inductive HashPurpose where
  | ServerAuthorization : HashPurpose
  | LocalAuthorization : HashPurpose
deriving DecidableEq, Repr

/-- The numeric value of a `HashPurpose`, as produced by `purpose as u32`:
`ServerAuthorization = 1`, `LocalAuthorization = 2`. -/
def HashPurpose.toU32 : HashPurpose → Nat
  | .ServerAuthorization => 1
  | .LocalAuthorization => 2

/-- The KDF configuration (`Kdf`); iteration and memory parameters are
`NonZeroU32` in the source, modelled as plain naturals. -/
inductive Kdf where
  | PBKDF2 : Nat → Kdf
  | Argon2id : Nat → Nat → Nat → Kdf
deriving DecidableEq, Repr

/-- Modelled from the spec: the Argon2id digest is an external library
primitive ("Argon2id with the given memory/parallelism/iterations, output 32
bytes"); it is modelled as an unspecified but deterministic 32-byte digest of
all of its inputs. -/
def argon2idDigest (password salt : List Nat) (iterations memory parallelism : Nat) :
    List Nat :=
  sha256 (password ++ salt ++ be32 iterations ++ be32 memory ++ be32 parallelism)

/-- Modelled from the spec: `derive_kdf_key` — password-based derivation of a
32-byte key carrying no MAC half, by PBKDF2-HMAC-SHA256 or Argon2id. -/
def derive_kdf_key (password email : List Nat) (kdf : Kdf) :
    Except CryptoError SymmetricCryptoKey :=
  match kdf with
  | .PBKDF2 iterations => .ok ⟨pbkdf2 password email iterations, none⟩
  | .Argon2id iterations memory parallelism =>
      .ok ⟨argon2idDigest password email iterations memory parallelism, none⟩

/-- The master key, derived from the user's master password
(`MasterKey(SymmetricCryptoKey)`). -/
structure MasterKey where
  key : SymmetricCryptoKey
deriving DecidableEq, Repr

/-- Derives a user's master key from password, email and KDF
(`MasterKey::derive`). -/
def MasterKey.derive (password email : List Nat) (kdf : Kdf) :
    Except CryptoError MasterKey :=
  (derive_kdf_key password email kdf).map MasterKey.mk

/-- Derive the master key hash used for local and remote password validation
(`MasterKey::derive_master_key_hash`): PBKDF2 with the master key bytes as the
password, the login password as the salt, and the purpose's numeric value as
the round count, base64-encoded. -/
def MasterKey.derive_master_key_hash (mk : MasterKey) (password : List Nat)
    (purpose : HashPurpose) : Except CryptoError String :=
  .ok (encodeBase64 (pbkdf2 mk.key.key password purpose.toU32))

/-- The step of `MasterKey::encrypt_user_key` after stretching: checked
run-time failure with invalid MAC when the stretched pair lacks its MAC half,
else the authenticated envelope over the user key's serialization. -/
def encrypt_user_key_stretched (stretched : SymmetricCryptoKey)
    (user_key : SymmetricCryptoKey) (iv : List Nat) : Except CryptoError EncString :=
  match stretched.mac_key with
  | none => .error .InvalidMac
  | some mkey => .ok (encryptAes256Hmac user_key.to_vec mkey stretched.key iv)

/-- Encrypt the user key under the stretched master key
(`MasterKey::encrypt_user_key`); the fresh IV is an explicit parameter. -/
def MasterKey.encrypt_user_key (mk : MasterKey) (user_key : SymmetricCryptoKey)
    (iv : List Nat) : Except CryptoError EncString := do
  let stretched ← stretch_kdf_key mk.key
  encrypt_user_key_stretched stretched user_key iv

/-- Decrypt the user's user key (`MasterKey::decrypt_user_key`): stretch,
envelope-decrypt, deserialize. -/
def MasterKey.decrypt_user_key (mk : MasterKey) (user_key : EncString) :
    Except CryptoError SymmetricCryptoKey := do
  let stretched ← stretch_kdf_key mk.key
  let dec ← user_key.decrypt_with_key stretched
  SymmetricCryptoKey.fromBytes dec

/-- The UTF-8 byte length of one scalar value. -/
def charLen (c : Char) : Nat :=
  if c.toNat < 128 then 1
  else if c.toNat < 2048 then 2
  else if c.toNat < 65536 then 3
  else 4

/-- The UTF-8 byte length of a string, Rust's `str::len`. -/
def utf8Len (s : List Char) : Nat := (s.map charLen).sum

/-- UTF-8 encoding of one scalar value. -/
def utf8EncodeChar (c : Char) : List Nat :=
  let n := c.toNat
  if n < 128 then [n]
  else if n < 2048 then [192 + n / 64, 128 + n % 64]
  else if n < 65536 then [224 + n / 4096, 128 + n / 64 % 64, 128 + n % 64]
  else [240 + n / 262144, 128 + n / 4096 % 64, 128 + n / 64 % 64, 128 + n % 64]

/-- UTF-8 encoding of a string. -/
def utf8Encode (s : List Char) : List Nat := s.flatMap utf8EncodeChar

/-- UTF-8 decoding with the validity checks Rust's `String::from_utf8`
performs: well-formed continuation bytes, no overlong forms, no surrogates,
no scalar values beyond 0x10FFFF. -/
def utf8DecodeList : List Nat → Option (List Char)
  | [] => some []
  | b :: bs =>
    if b < 128 then (utf8DecodeList bs).map (Char.ofNat b :: ·)
    else if b < 194 then none
    else if b < 224 then
      match bs with
      | b1 :: bs' =>
          if 128 ≤ b1 ∧ b1 < 192 then
            (utf8DecodeList bs').map (Char.ofNat ((b - 192) * 64 + (b1 - 128)) :: ·)
          else none
      | [] => none
    else if b < 240 then
      match bs with
      | b1 :: b2 :: bs' =>
          if (128 ≤ b1 ∧ b1 < 192) ∧ (128 ≤ b2 ∧ b2 < 192) ∧
             (b ≠ 224 ∨ 160 ≤ b1) ∧ (b ≠ 237 ∨ b1 < 160) then
            (utf8DecodeList bs').map
              (Char.ofNat ((b - 224) * 4096 + (b1 - 128) * 64 + (b2 - 128)) :: ·)
          else none
      | _ => none
    else if b < 245 then
      match bs with
      | b1 :: b2 :: b3 :: bs' =>
          if (128 ≤ b1 ∧ b1 < 192) ∧ (128 ≤ b2 ∧ b2 < 192) ∧ (128 ≤ b3 ∧ b3 < 192) ∧
             (b ≠ 240 ∨ 144 ≤ b1) ∧ (b ≠ 244 ∨ b1 < 144) then
            (utf8DecodeList bs').map
              (Char.ofNat ((b - 240) * 262144 + (b1 - 128) * 4096 + (b2 - 128) * 64 +
                (b3 - 128)) :: ·)
          else none
      | _ => none
    else none

/-- UTF-8 decoding to a string. -/
def utf8Decode (bs : List Nat) : Option String := (utf8DecodeList bs).map String.mk

/-- Decrypt an envelope to text: envelope-decrypt, then UTF-8-validate, as the
string instance of `KeyDecryptable` does. -/
def decryptString (es : EncString) (key : SymmetricCryptoKey) : Except CryptoError String :=
  match es.decrypt_with_key key with
  | .error e => .error e
  | .ok b =>
      match utf8Decode b with
      | some s => .ok s
      | none => .error .InvalidUtf8

/-- The `Option` instance of the decrypt capability: `None` stays `None`, a
present value decrypts and propagates its error. -/
def decOpt (f : α → Except CryptoError β) : Option α → Except CryptoError (Option β)
  | none => .ok none
  | some a => (f a).map some

/-- The `Vec` instance of the decrypt capability: element-wise, propagating
the first error. -/
def decList (f : α → Except CryptoError β) : List α → Except CryptoError (List β)
  | [] => .ok []
  | a :: rest => do
      let b ← f a
      let bs ← decList f rest
      .ok (b :: bs)

/-- Rust's `.ok().flatten()` on a decrypted optional field: an error or an
absent value both degrade to `None`. -/
def okFlatten (r : Except CryptoError (Option β)) : Option β :=
  match r with
  | .ok v => v
  | .error _ => none

/-- Rust's `.ok().unwrap_or_default()` on a decrypted string field: an error
degrades to the empty string. -/
def okOrDefault (r : Except CryptoError String) : String :=
  match r with
  | .ok v => v
  | .error _ => ""

/-- Modelled from the spec: a stored login URI — ciphertext of the URI and of
its tamper-evidence checksum (`LoginUri`, module not under study). -/
structure LoginUri where
  uri : Option EncString
  uri_checksum : Option EncString
deriving DecidableEq, Repr

/-- The decrypted view of a stored login URI. -/
structure LoginUriView where
  uri : Option String
  uri_checksum : Option String
deriving DecidableEq, Repr

/-- Modelled from the spec: a URI's checksum is valid when the stored checksum
equals the base64-encoded SHA-256 of the URI text. -/
def LoginUriView.is_checksum_valid (u : LoginUriView) : Bool :=
  match u.uri, u.uri_checksum with
  | some uri, some cs => cs == encodeBase64 (sha256 (utf8Encode uri.data))
  | _, _ => false

/-- Decrypt a stored login URI; field errors propagate within the sub-entity. -/
def LoginUri.decrypt_with_key (u : LoginUri) (key : SymmetricCryptoKey) :
    Except CryptoError LoginUriView := do
  let uri ← decOpt (fun e => decryptString e key) u.uri
  let cs ← decOpt (fun e => decryptString e key) u.uri_checksum
  .ok ⟨uri, cs⟩

/-- Modelled from the spec: the encrypted login sub-entity (`Login`, module
not under study), restricted to the fields the studied code touches. -/
structure Login where
  username : Option EncString
  password : Option EncString
  uris : Option (List LoginUri)
deriving DecidableEq, Repr

/-- The decrypted view of a login sub-entity. -/
structure LoginView where
  username : Option String
  password : Option String
  uris : Option (List LoginUriView)
deriving DecidableEq, Repr

/-- Decrypt a login; sub-field errors propagate out of the sub-entity (the
fail-soft policy lives one level up, on the cipher's own fields). -/
def Login.decrypt_with_key (l : Login) (key : SymmetricCryptoKey) :
    Except CryptoError LoginView := do
  let u ← decOpt (fun e => decryptString e key) l.username
  let p ← decOpt (fun e => decryptString e key) l.password
  let us ← decOpt (decList (fun x => LoginUri.decrypt_with_key x key)) l.uris
  .ok ⟨u, p, us⟩

/-- Modelled from the spec: the encrypted identity sub-entity, restricted to
the fields the studied code touches. -/
structure Identity where
  first_name : Option EncString
  last_name : Option EncString
deriving DecidableEq, Repr

/-- The decrypted view of an identity sub-entity. -/
structure IdentityView where
  first_name : Option String
  last_name : Option String
deriving DecidableEq, Repr

/-- Decrypt an identity. -/
def Identity.decrypt_with_key (i : Identity) (key : SymmetricCryptoKey) :
    Except CryptoError IdentityView := do
  let f ← decOpt (fun e => decryptString e key) i.first_name
  let l ← decOpt (fun e => decryptString e key) i.last_name
  .ok ⟨f, l⟩

/-- Modelled from the spec: the encrypted card sub-entity, restricted to the
fields the studied code touches. -/
structure Card where
  brand : Option EncString
  number : Option EncString
deriving DecidableEq, Repr

/-- The decrypted view of a card sub-entity. -/
structure CardView where
  brand : Option String
  number : Option String
deriving DecidableEq, Repr

/-- Decrypt a card. -/
def Card.decrypt_with_key (c : Card) (key : SymmetricCryptoKey) :
    Except CryptoError CardView := do
  let b ← decOpt (fun e => decryptString e key) c.brand
  let n ← decOpt (fun e => decryptString e key) c.number
  .ok ⟨b, n⟩

/-- Modelled from the spec: the secure-note sub-entity carries only its
note-type discriminant. -/
structure SecureNote where
  ty : Nat
deriving DecidableEq, Repr

/-- The decrypted view of a secure note. -/
structure SecureNoteView where
  ty : Nat
deriving DecidableEq, Repr

/-- Decrypt a secure note (nothing is encrypted in it). -/
def SecureNote.decrypt_with_key (s : SecureNote) (_key : SymmetricCryptoKey) :
    Except CryptoError SecureNoteView := .ok ⟨s.ty⟩

/-- Modelled from the spec: an attachment record, restricted to one encrypted
field. -/
structure Attachment where
  file_name : Option EncString
deriving DecidableEq, Repr

/-- The decrypted view of an attachment record. -/
structure AttachmentView where
  file_name : Option String
deriving DecidableEq, Repr

/-- Decrypt an attachment record. -/
def Attachment.decrypt_with_key (a : Attachment) (key : SymmetricCryptoKey) :
    Except CryptoError AttachmentView := do
  let f ← decOpt (fun e => decryptString e key) a.file_name
  .ok ⟨f⟩

/-- Modelled from the spec: a custom field record. -/
structure FieldEntry where
  name : Option EncString
  value : Option EncString
deriving DecidableEq, Repr

/-- The decrypted view of a custom field record. -/
structure FieldEntryView where
  name : Option String
  value : Option String
deriving DecidableEq, Repr

/-- Decrypt a custom field record. -/
def FieldEntry.decrypt_with_key (f : FieldEntry) (key : SymmetricCryptoKey) :
    Except CryptoError FieldEntryView := do
  let n ← decOpt (fun e => decryptString e key) f.name
  let v ← decOpt (fun e => decryptString e key) f.value
  .ok ⟨n, v⟩

/-- Modelled from the spec: a password-history record. -/
structure PasswordHistory where
  password : EncString
  last_used_date : Nat
deriving DecidableEq, Repr

/-- The decrypted view of a password-history record. -/
structure PasswordHistoryView where
  password : String
  last_used_date : Nat
deriving DecidableEq, Repr

/-- Decrypt a password-history record. -/
def PasswordHistory.decrypt_with_key (p : PasswordHistory) (key : SymmetricCryptoKey) :
    Except CryptoError PasswordHistoryView := do
  let pw ← decryptString p.password key
  .ok ⟨pw, p.last_used_date⟩

/-- Modelled from the spec: client-local metadata; nothing in it is encrypted. -/
structure LocalData where
  last_used_date : Option Nat
deriving DecidableEq, Repr

/-- The decrypted view of client-local metadata. -/
structure LocalDataView where
  last_used_date : Option Nat
deriving DecidableEq, Repr

/-- Decrypt local data (a plain copy). -/
def LocalData.decrypt_with_key (d : LocalData) (_key : SymmetricCryptoKey) :
    Except CryptoError LocalDataView := .ok ⟨d.last_used_date⟩

/-- The cipher's entity type discriminant (`CipherType`). -/
inductive CipherType where
  | Login : CipherType
  | SecureNote : CipherType
  | Card : CipherType
  | Identity : CipherType
deriving DecidableEq, Repr

/-- The master-password reprompt setting (`CipherRepromptType`). -/
inductive CipherRepromptType where
  | None : CipherRepromptType
  | Password : CipherRepromptType
deriving DecidableEq, Repr

/-- The encrypted vault entity (`Cipher`), with the field layout of the
source; identifiers and dates are modelled as naturals. -/
structure Cipher where
  id : Option Nat
  organization_id : Option Nat
  folder_id : Option Nat
  collection_ids : List Nat
  key : Option EncString
  name : EncString
  notes : Option EncString
  ty : CipherType
  login : Option Login
  identity : Option Identity
  card : Option Card
  secure_note : Option SecureNote
  favorite : Bool
  reprompt : CipherRepromptType
  organization_use_totp : Bool
  edit : Bool
  view_password : Bool
  local_data : Option LocalData
  attachments : Option (List Attachment)
  fields : Option (List FieldEntry)
  password_history : Option (List PasswordHistory)
  creation_date : Nat
  deleted_date : Option Nat
  revision_date : Nat
deriving DecidableEq, Repr

/-- The decrypted vault entity (`CipherView`). -/
structure CipherView where
  id : Option Nat
  organization_id : Option Nat
  folder_id : Option Nat
  collection_ids : List Nat
  key : Option EncString
  name : String
  notes : Option String
  ty : CipherType
  login : Option LoginView
  identity : Option IdentityView
  card : Option CardView
  secure_note : Option SecureNoteView
  favorite : Bool
  reprompt : CipherRepromptType
  organization_use_totp : Bool
  edit : Bool
  view_password : Bool
  local_data : Option LocalDataView
  attachments : Option (List AttachmentView)
  fields : Option (List FieldEntryView)
  password_history : Option (List PasswordHistoryView)
  creation_date : Nat
  deleted_date : Option Nat
  revision_date : Nat
deriving DecidableEq, Repr

/-- The key-resolution capability (`KeyContainer`): maps an optional
organization identifier to that scope's symmetric key, `none` when the key is
unavailable. -/
def KeyContainer : Type := Option Nat → Option SymmetricCryptoKey

/-- Get the decrypted individual encryption key for a cipher
(`Cipher::get_cipher_key`): absent wrapped key means the principal key must
be used; a present one is envelope-decrypted and deserialized, either failure
propagating. -/
def Cipher.get_cipher_key (key : SymmetricCryptoKey) (ciphers_key : Option EncString) :
    Except CryptoError (Option SymmetricCryptoKey) :=
  match ciphers_key with
  | none => .ok none
  | some k => do
      let dec ← k.decrypt_with_key key
      (SymmetricCryptoKey.fromBytes dec).map some

/-- Drop decrypted URIs whose checksum does not validate
(`CipherView::remove_invalid_checksums`). -/
def CipherView.remove_invalid_checksums (v : CipherView) : CipherView :=
  { v with login := v.login.map (fun l =>
      { l with uris := l.uris.map (fun us => us.filter (fun u => u.is_checksum_valid)) }) }

/-- Decrypt a cipher into its view (`Cipher::decrypt_with_key` for
`CipherView`): resolving the per-item key is fail-closed, after which every
field is decrypted independently and degrades to its default on failure. -/
def Cipher.decrypt_with_key (c : Cipher) (key : SymmetricCryptoKey) :
    Except CryptoError CipherView := do
  let ciphers_key ← Cipher.get_cipher_key key c.key
  let k := ciphers_key.getD key
  let v : CipherView :=
    { id := c.id
      organization_id := c.organization_id
      folder_id := c.folder_id
      collection_ids := c.collection_ids
      key := c.key
      name := okOrDefault (decryptString c.name k)
      notes := okFlatten (decOpt (fun e => decryptString e k) c.notes)
      ty := c.ty
      login := okFlatten (decOpt (fun l => Login.decrypt_with_key l k) c.login)
      identity := okFlatten (decOpt (fun i => Identity.decrypt_with_key i k) c.identity)
      card := okFlatten (decOpt (fun x => Card.decrypt_with_key x k) c.card)
      secure_note := okFlatten (decOpt (fun s => SecureNote.decrypt_with_key s k) c.secure_note)
      favorite := c.favorite
      reprompt := c.reprompt
      organization_use_totp := c.organization_use_totp
      edit := c.edit
      view_password := c.view_password
      local_data := okFlatten (decOpt (fun d => LocalData.decrypt_with_key d k) c.local_data)
      attachments := okFlatten
        (decOpt (decList (fun a => Attachment.decrypt_with_key a k)) c.attachments)
      fields := okFlatten
        (decOpt (decList (fun f => FieldEntry.decrypt_with_key f k)) c.fields)
      password_history := okFlatten
        (decOpt (decList (fun p => PasswordHistory.decrypt_with_key p k)) c.password_history)
      creation_date := c.creation_date
      deleted_date := c.deleted_date
      revision_date := c.revision_date }
  .ok (if ciphers_key.isSome then v.remove_invalid_checksums else v)

/-- Re-key a cipher view on ownership transfer
(`CipherView::move_to_organization`), as a state-passing function: the
returned view is the receiver after the call (unchanged when the call
errors, since the source mutates nothing before an early return).  When a
wrapped item key is present it is unwrapped with the old scope's principal
key and re-wrapped with the new organization's (fresh IV passed explicitly);
without one, no key resolution happens at all.  The organization id is set
last. -/
def CipherView.move_to_organization (v : CipherView) (enc : KeyContainer)
    (organization_id : Nat) (iv : List Nat) : CipherView × Except BwError Unit :=
  match v.key with
  | some cipher_key =>
      match enc v.organization_id with
      | none => (v, .error .VaultLocked)
      | some old_key =>
          match enc (some organization_id) with
          | none => (v, .error .VaultLocked)
          | some new_key =>
              match cipher_key.decrypt_with_key old_key with
              | .error e => (v, .error (.Crypto e))
              | .ok dec_cipher_key =>
                  match encryptBytesWithKey dec_cipher_key new_key iv with
                  | .error e => (v, .error (.Crypto e))
                  | .ok rewrapped =>
                      ({ v with key := some rewrapped,
                                organization_id := some organization_id }, .ok ())
  | none => ({ v with organization_id := some organization_id }, .ok ())

/-- Rust byte-slicing, prefix form: the first `i` bytes of a string as
characters, `none` when `i` is not a character boundary or exceeds the string
(a `&s[0..i]` panic). -/
def byteTake : List Char → Nat → Option (List Char)
  | _, 0 => some []
  | [], _ + 1 => none
  | c :: cs, i + 1 =>
      if charLen c ≤ i + 1 then (byteTake cs (i + 1 - charLen c)).map (c :: ·)
      else none

/-- Rust byte-slicing, suffix form: the characters from byte position `i` on,
`none` when `i` is not a character boundary or exceeds the string
(a `&s[i..]` panic). -/
def byteSliceFrom : List Char → Nat → Option (List Char)
  | s, 0 => some s
  | [], _ + 1 => none
  | c :: cs, i + 1 =>
      if charLen c ≤ i + 1 then byteSliceFrom cs (i + 1 - charLen c)
      else none

/-- Build the subtitle of a card cipher (`build_subtitle_card`), with Rust
string-slicing semantics made explicit: the result is `none` exactly when the
source would panic slicing at a non-boundary byte index.  A number of more
than 4 bytes keeps its trailing 4 digits, or 5 when the first two bytes are
the Amex ranges "34"/"37". -/
def build_subtitle_card (brand number : Option String) : Option String :=
  let brand' : Option String :=
    match brand with
    | some b => if b.data.isEmpty then none else some b
    | none => none
  let numRes : Option (Option String) :=
    match number with
    | none => some none
    | some n =>
        if 4 < utf8Len n.data then
          match byteTake n.data 2 with
          | none => none
          | some first2 =>
              let desired := if first2 = ['3', '4'] ∨ first2 = ['3', '7'] then 5 else 4
              match byteSliceFrom n.data (utf8Len n.data - desired) with
              | none => none
              | some tail => some (some (String.mk ('*' :: tail)))
        else some none
  match numRes with
  | none => none
  | some number' =>
      some (match brand', number' with
        | some b, some num => b ++ ", " ++ num
        | some b, none => b
        | none, some num => num
        | none, none => "")

/-- Length of a pointwise xor. -/
theorem xorBytes_length (a b : List Nat) : (xorBytes a b).length = min a.length b.length := by
  simp [xorBytes]

/-- Xoring the same pad twice is the identity on byte strings no longer than
the pad. -/
theorem xorBytes_cancel (a : List Nat) : ∀ p : List Nat, a.length ≤ p.length →
    xorBytes (xorBytes a p) p = a := by
  induction a with
  | nil => intro p _; simp [xorBytes]
  | cons x xs ih =>
      intro p hp
      cases p with
      | nil => simp at hp
      | cons y ys =>
          have hys : xs.length ≤ ys.length := by
            simp only [List.length_cons] at hp; omega
          simp only [xorBytes, List.zipWith_cons_cons] at *
          rw [Nat.xor_cancel_right, ih ys hys]

/-- The modelled block pad is 16 bytes. -/
theorem blockPad_length (k : List Nat) : (blockPad k).length = 16 := by
  simp [blockPad, List.length_take, sha256_length]

/-- The modelled block operation is an involution on blocks of at most 16
bytes. -/
theorem encBlock_encBlock (k b : List Nat) (h : b.length ≤ 16) :
    encBlock k (encBlock k b) = b :=
  xorBytes_cancel b (blockPad k) (by rw [blockPad_length]; exact h)

/-- Length of the modelled block operation. -/
theorem encBlock_length (k b : List Nat) : (encBlock k b).length = min b.length 16 := by
  simp [encBlock, xorBytes_length, blockPad_length]

/-- Unfolding step of CBC encryption on a nonempty message. -/
theorem cbcEnc_cons (k prev : List Nat) (x : Nat) (xs : List Nat) :
    cbcEnc k prev (x :: xs) =
      encBlock k (xorBytes ((x :: xs).take 16) prev) ++
        cbcEnc k (encBlock k (xorBytes ((x :: xs).take 16) prev)) ((x :: xs).drop 16) := by
  rw [cbcEnc]

/-- Unfolding step of CBC decryption on a nonempty ciphertext. -/
theorem cbcDec_cons (k prev : List Nat) (x : Nat) (xs : List Nat) :
    cbcDec k prev (x :: xs) =
      xorBytes (encBlock k ((x :: xs).take 16)) prev ++
        cbcDec k ((x :: xs).take 16) ((x :: xs).drop 16) := by
  rw [cbcDec]

/-- CBC encryption preserves the length of block-aligned input (fuel-indexed
induction form). -/
theorem cbcEnc_length_aux (k : List Nat) :
    ∀ (fuel : Nat) (m prev : List Nat), m.length ≤ fuel → m.length % 16 = 0 →
      prev.length = 16 → (cbcEnc k prev m).length = m.length := by
  intro fuel
  induction fuel with
  | zero =>
      intro m prev hf _ _
      have : m = [] := List.eq_nil_of_length_eq_zero (by omega)
      subst this; simp [cbcEnc]
  | succ n ih =>
      intro m prev hf hm hp
      cases m with
      | nil => simp [cbcEnc]
      | cons x xs =>
          have hlen : 16 ≤ (x :: xs).length := by
            have h0 : (x :: xs).length ≠ 0 := by simp
            omega
          have hc : (encBlock k (xorBytes ((x :: xs).take 16) prev)).length = 16 := by
            rw [encBlock_length, xorBytes_length, List.length_take, hp]
            omega
          rw [cbcEnc_cons, List.length_append, hc]
          rw [ih ((x :: xs).drop 16) _ (by rw [List.length_drop]; simp at hf ⊢; omega)
            (by rw [List.length_drop]; omega) hc]
          rw [List.length_drop]
          omega

/-- CBC encryption preserves the length of block-aligned input. -/
theorem cbcEnc_length (k m prev : List Nat) (hm : m.length % 16 = 0)
    (hp : prev.length = 16) : (cbcEnc k prev m).length = m.length :=
  cbcEnc_length_aux k m.length m prev le_rfl hm hp

/-- CBC decryption inverts CBC encryption on block-aligned input (fuel-indexed
induction form). -/
theorem cbcDec_cbcEnc_aux (k : List Nat) :
    ∀ (fuel : Nat) (m prev : List Nat), m.length ≤ fuel → m.length % 16 = 0 →
      prev.length = 16 → cbcDec k prev (cbcEnc k prev m) = m := by
  intro fuel
  induction fuel with
  | zero =>
      intro m prev hf _ _
      have : m = [] := List.eq_nil_of_length_eq_zero (by omega)
      subst this; simp [cbcEnc, cbcDec]
  | succ n ih =>
      intro m prev hf hm hp
      cases m with
      | nil => simp [cbcEnc, cbcDec]
      | cons x xs =>
          have hlen : 16 ≤ (x :: xs).length := by
            have h0 : (x :: xs).length ≠ 0 := by simp
            omega
          have hblk : ((x :: xs).take 16).length = 16 := by
            rw [List.length_take]; omega
          have hxor : (xorBytes ((x :: xs).take 16) prev).length = 16 := by
            rw [xorBytes_length, hblk, hp]; simp
          set c := encBlock k (xorBytes ((x :: xs).take 16) prev) with hcdef
          have hc : c.length = 16 := by
            rw [hcdef, encBlock_length, hxor]; simp
          rw [cbcEnc_cons, ← hcdef]
          have hcons : ∃ c0 cs0, c = c0 :: cs0 := by
            cases hcc : c with
            | nil => rw [hcc] at hc; simp at hc
            | cons c0 cs0 => exact ⟨c0, cs0, rfl⟩
          obtain ⟨c0, cs0, hsplit⟩ := hcons
          rw [hsplit, List.cons_append, cbcDec_cons, ← List.cons_append, ← hsplit]
          have htake : (c ++ cbcEnc k c ((x :: xs).drop 16)).take 16 = c :=
            List.take_left' hc
          have hdrop : (c ++ cbcEnc k c ((x :: xs).drop 16)).drop 16 =
              cbcEnc k c ((x :: xs).drop 16) :=
            List.drop_left' hc
          rw [htake, hdrop, hcdef]
          rw [encBlock_encBlock k _ (by rw [hxor])]
          rw [xorBytes_cancel _ prev (by rw [hblk, hp])]
          rw [← hcdef, ih ((x :: xs).drop 16) c (by simp at hf ⊢; omega)
            (by rw [List.length_drop]; omega) hc]
          exact List.take_append_drop 16 (x :: xs)

/-- CBC decryption inverts CBC encryption on block-aligned input. -/
theorem cbcDec_cbcEnc (k m prev : List Nat) (hm : m.length % 16 = 0)
    (hp : prev.length = 16) : cbcDec k prev (cbcEnc k prev m) = m :=
  cbcDec_cbcEnc_aux k m.length m prev le_rfl hm hp

/-- Every element of a replicate satisfies the replicated equality. -/
theorem replicate_all_eq (n a : Nat) : (List.replicate n a).all (· = a) = true := by
  induction n with
  | zero => rfl
  | succ k ih => simp [List.replicate_succ, ih]

/-- PKCS7 padding always produces block-aligned output. -/
theorem pkcs7Pad_mod (b : List Nat) : (pkcs7Pad b).length % 16 = 0 := by
  simp only [pkcs7Pad, List.length_append, List.length_replicate]
  omega

/-- PKCS7 padding never produces the empty string. -/
theorem pkcs7Pad_pos (b : List Nat) : (pkcs7Pad b).length ≠ 0 := by
  simp only [pkcs7Pad, List.length_append, List.length_replicate]
  omega

/-- PKCS7 unpadding inverts PKCS7 padding. -/
theorem pkcs7Unpad_pad (b : List Nat) : pkcs7Unpad (pkcs7Pad b) = .ok b := by
  have hmod : b.length % 16 < 16 := Nat.mod_lt _ (by norm_num)
  set n := 16 - b.length % 16 with hn
  have hn1 : 1 ≤ n := by omega
  have hn16 : n ≤ 16 := by omega
  have hpad : pkcs7Pad b = b ++ List.replicate n n := by
    simp [pkcs7Pad, ← hn]
  have hrep : List.replicate n n = List.replicate (n - 1) n ++ [n] := by
    have h := List.replicate_succ' (n - 1) n
    rw [show n - 1 + 1 = n from by omega] at h
    exact h
  have hlast : (pkcs7Pad b).getLast? = some n := by
    rw [hpad, hrep, ← List.append_assoc]
    exact List.getLast?_concat _
  have hlen : (pkcs7Pad b).length = b.length + n := by
    rw [hpad]; simp
  have hcond : 1 ≤ n ∧ n ≤ 16 ∧ n ≤ (pkcs7Pad b).length ∧
      (((pkcs7Pad b).drop ((pkcs7Pad b).length - n)).all (· = n)) = true := by
    refine ⟨hn1, hn16, by omega, ?_⟩
    rw [show (pkcs7Pad b).length - n = b.length from by omega, hpad,
      List.drop_left b _]
    exact replicate_all_eq n n
  unfold pkcs7Unpad
  simp only [hlast]
  rw [if_pos hcond]
  rw [show (pkcs7Pad b).length - n = b.length from by omega, hpad, List.take_left b _]

/-- Decrypting the authenticated envelope with the key pair that produced it
recovers the plaintext: the recomputed MAC matches, the ciphertext is
block-aligned and nonempty, and CBC decryption plus unpadding invert
encryption. -/
theorem encString_decrypt_encrypt (b mkey k iv : List Nat) (hiv : iv.length = 16) :
    (encryptAes256Hmac b mkey k iv).decrypt_with_key ⟨k, some mkey⟩ = .ok b := by
  unfold encryptAes256Hmac EncString.decrypt_with_key
  simp only
  rw [if_neg (by simp)]
  have hctlen : (cbcEnc k iv (pkcs7Pad b)).length = (pkcs7Pad b).length :=
    cbcEnc_length k _ iv (pkcs7Pad_mod b) hiv
  rw [if_neg (by
    rw [hctlen]
    push_neg
    exact ⟨pkcs7Pad_mod b, pkcs7Pad_pos b⟩)]
  rw [cbcDec_cbcEnc k (pkcs7Pad b) iv (pkcs7Pad_mod b) hiv]
  exact pkcs7Unpad_pad b

/-- Deserializing a both-halves key's serialization recovers the key. -/
theorem fromBytes_to_vec (uk : SymmetricCryptoKey) (m : List Nat)
    (hm : uk.mac_key = some m) (h1 : uk.key.length = 32) (h2 : m.length = 32) :
    SymmetricCryptoKey.fromBytes uk.to_vec = .ok uk := by
  have hv : uk.to_vec = uk.key ++ m := by
    unfold SymmetricCryptoKey.to_vec
    rw [hm]
  unfold SymmetricCryptoKey.fromBytes
  rw [hv]
  rw [if_pos (by simp [h1, h2])]
  rw [List.take_left' h1, List.drop_left' h1, ← hm]

/-- Stretching a 32-byte master key succeeds and yields a key pair whose MAC
half is present: each half is one HKDF-expand block under its
domain-separation info string. -/
theorem stretch_kdf_key_spec (k : SymmetricCryptoKey) (h : 32 ≤ k.key.length) :
    stretch_kdf_key k =
      .ok ⟨hmacSha256 k.key ([101, 110, 99] ++ [1]),
           some (hmacSha256 k.key ([109, 97, 99] ++ [1]))⟩ := by
  have hexp : ∀ info : List Nat, hkdf_expand k.key info 32 =
      .ok (hmacSha256 k.key (info ++ [1])) := by
    intro info
    unfold hkdf_expand
    rw [if_neg (by omega), if_neg (by norm_num)]
    show Except.ok ((hkdfExpandLoop k.key info [] 1 1).take 32) = _
    simp only [hkdfExpandLoop, List.nil_append, List.append_nil]
    rw [List.take_of_length_le (by rw [hmacSha256_length])]
  unfold stretch_kdf_key
  rw [hexp [101, 110, 99], hexp [109, 97, 99]]
  rfl

/-- Decidable equality for `Except` results, used to evaluate the operations
at concrete inputs. -/
instance instDecEqExcept [DecidableEq ε] [DecidableEq α] : DecidableEq (Except ε α) := fun a b =>
  match a, b with
  | .ok x, .ok y =>
      if h : x = y then isTrue (congrArg Except.ok h)
      else isFalse (fun hc => h (Except.ok.inj hc))
  | .error x, .error y =>
      if h : x = y then isTrue (congrArg Except.error h)
      else isFalse (fun hc => h (Except.error.inj hc))
  | .ok _, .error _ => isFalse (fun hc => Except.noConfusion hc)
  | .error _, .ok _ => isFalse (fun hc => Except.noConfusion hc)

/-- A PBKDF2 output is always 32 bytes. -/
theorem pbkdf2Loop_length (pw : List Nat) :
    ∀ (n : Nat) (u acc : List Nat), acc.length = 32 →
      (pbkdf2Loop pw u acc n).length = 32 := by
  intro n
  induction n with
  | zero => intro u acc h; exact h
  | succ m ih =>
      intro u acc h
      simp only [pbkdf2Loop]
      exact ih _ _ (by rw [xorBytes_length, h, hmacSha256_length]; simp)

/-- The verification-hash digest is always 32 bytes. -/
theorem pbkdf2_length (password salt : List Nat) (rounds : Nat) :
    (pbkdf2 password salt rounds).length = 32 :=
  pbkdf2Loop_length password rounds _ _ (by simp)

/-- The master key bytes of the repository's own PBKDF2 derivation test. -/
def sampleMasterKeyBytes : List Nat :=
  [31, 79, 104, 226, 150, 71, 177, 90, 194, 80, 172, 209, 17, 129, 132, 81,
   138, 167, 69, 167, 254, 149, 2, 27, 39, 197, 64, 42, 22, 195, 86, 75]

/-- The password bytes of the repository's own PBKDF2 derivation test
(ASCII codes of the test password). -/
def samplePasswordBytes : List Nat := [54, 55, 116, 57, 98, 53, 103, 54, 55, 36, 37, 68, 104, 56, 57, 110]

set_option maxRecDepth 10000

/-- Reduction of a successful `Except` bind, used to unfold the monadic
pipelines symbolically. -/
theorem except_ok_bind (x : α) (f : α → Except ε β) :
    ((Except.ok x : Except ε α) >>= f) = f x := rfl

/-- C1 (amended): for every master key, password and purpose, the derived
verification hash is the standard, padded base64 encoding of the 32-byte
PBKDF2-HMAC-SHA256 digest computed over the master key's raw key bytes as the
password, with the purpose discriminant as the iteration count — 1 for
ServerAuthorization and 2 for LocalAuthorization. -/
theorem derive_master_key_hash_spec (mk : MasterKey) (password : List Nat)
    (purpose : HashPurpose) :
    mk.derive_master_key_hash password purpose =
      .ok (encodeBase64 (pbkdf2 mk.key.key password purpose.toU32)) ∧
    (pbkdf2 mk.key.key password purpose.toU32).length = 32 ∧
    HashPurpose.toU32 .ServerAuthorization = 1 ∧
    HashPurpose.toU32 .LocalAuthorization = 2 :=
  ⟨rfl, pbkdf2_length _ _ _, rfl, rfl⟩

/-- C1 counterexample: at the repository's own test master key and password,
the hash derived for LocalAuthorization is not the base64 encoding of the
one-iteration PBKDF2 digest — the iteration count is the purpose discriminant,
which is 2 for this purpose, so the claim "exactly 1 iteration for every
HashPurpose" fails. -/
theorem derive_master_key_hash_local_not_one_iteration :
    MasterKey.derive_master_key_hash ⟨⟨sampleMasterKeyBytes, none⟩⟩ samplePasswordBytes
        .LocalAuthorization ≠
      .ok (encodeBase64 (pbkdf2 sampleMasterKeyBytes samplePasswordBytes 1)) := by
  decide

/-- C2: wrapping a valid user key under a master key and unwrapping it again
returns the user key exactly, enc and MAC halves included. -/
theorem user_key_roundtrip (mk : MasterKey) (uk : SymmetricCryptoKey) (iv m : List Nat)
    (hmk : 32 ≤ mk.key.key.length) (hm : uk.mac_key = some m) (h1 : uk.key.length = 32)
    (h2 : m.length = 32) (hiv : iv.length = 16) :
    ∃ es, mk.encrypt_user_key uk iv = .ok es ∧ mk.decrypt_user_key es = .ok uk := by
  have hst := stretch_kdf_key_spec mk.key hmk
  refine ⟨encryptAes256Hmac uk.to_vec (hmacSha256 mk.key.key ([109, 97, 99] ++ [1]))
    (hmacSha256 mk.key.key ([101, 110, 99] ++ [1])) iv, ?_, ?_⟩
  · unfold MasterKey.encrypt_user_key
    rw [hst]
    rfl
  · unfold MasterKey.decrypt_user_key
    rw [hst, except_ok_bind]
    rw [encString_decrypt_encrypt uk.to_vec _ _ iv hiv, except_ok_bind]
    exact fromBytes_to_vec uk m hm h1 h2

/-- C2 witness: a concrete 32-byte master key round-trips a concrete
two-halves user key. -/
theorem user_key_roundtrip_witness :
    ∃ es, MasterKey.encrypt_user_key ⟨⟨sampleMasterKeyBytes, none⟩⟩
        ⟨(List.range 32).map (· + 1), some ((List.range 32).map (· + 100))⟩
        ((List.range 16).map (· + 50)) = .ok es ∧
      MasterKey.decrypt_user_key ⟨⟨sampleMasterKeyBytes, none⟩⟩ es =
        .ok ⟨(List.range 32).map (· + 1), some ((List.range 32).map (· + 100))⟩ :=
  user_key_roundtrip ⟨⟨sampleMasterKeyBytes, none⟩⟩
    ⟨(List.range 32).map (· + 1), some ((List.range 32).map (· + 100))⟩
    ((List.range 16).map (· + 50)) ((List.range 32).map (· + 100))
    (by decide) rfl (by decide) (by decide) (by decide)

/-- C7: a freshly derived master key never carries a MAC half, for every
password, email and KDF parameter choice; a stretched key, by contrast, always
carries one. -/
theorem derive_no_mac_stretched_has_mac :
    (∀ password email kdf mk', MasterKey.derive password email kdf = .ok mk' →
        mk'.key.mac_key = none) ∧
    (∀ k s, stretch_kdf_key k = .ok s → s.mac_key.isSome = true) := by
  constructor
  · intro password email kdf mk' h
    cases kdf with
    | PBKDF2 iterations =>
        simp only [MasterKey.derive, derive_kdf_key, Except.map] at h
        injection h with h'
        subst h'
        rfl
    | Argon2id iterations memory parallelism =>
        simp only [MasterKey.derive, derive_kdf_key, Except.map] at h
        injection h with h'
        subst h'
        rfl
  · intro k s h
    unfold stretch_kdf_key at h
    cases h1 : hkdf_expand k.key [101, 110, 99] 32 with
    | error e => rw [h1] at h; simp [Bind.bind, Except.bind] at h
    | ok ek =>
        cases h2 : hkdf_expand k.key [109, 97, 99] 32 with
        | error e =>
            rw [h1, h2] at h
            simp [Bind.bind, Except.bind] at h
        | ok mkk =>
            rw [h1, h2] at h
            simp only [Bind.bind, Except.bind] at h
            injection h with h'
            subst h'
            rfl

/-- C7 witness: a one-iteration PBKDF2 derivation yields a key without MAC
half, and stretching a concrete 32-byte key yields one with a MAC half. -/
theorem derive_no_mac_stretched_has_mac_witness :
    (MasterKey.mk ⟨pbkdf2 samplePasswordBytes [1, 2, 3] 1, none⟩).key.mac_key = none ∧
    ∀ s, stretch_kdf_key ⟨sampleMasterKeyBytes, none⟩ = .ok s → s.mac_key.isSome = true :=
  ⟨derive_no_mac_stretched_has_mac.1 samplePasswordBytes [1, 2, 3] (.PBKDF2 1)
      ⟨⟨pbkdf2 samplePasswordBytes [1, 2, 3] 1, none⟩⟩ rfl,
   fun s hs => derive_no_mac_stretched_has_mac.2 ⟨sampleMasterKeyBytes, none⟩ s hs⟩

/-- C8: after stretching, the absence of the MAC half is checked at run time:
user-key encryption on a MAC-less stretched pair returns the invalid-MAC
error rather than encrypting. -/
theorem encrypt_user_key_checks_mac (stretched uk : SymmetricCryptoKey) (iv : List Nat)
    (h : stretched.mac_key = none) :
    encrypt_user_key_stretched stretched uk iv = .error .InvalidMac := by
  unfold encrypt_user_key_stretched
  rw [h]

/-- C8 witness: the check fires on a concrete MAC-less key pair. -/
theorem encrypt_user_key_checks_mac_witness :
    encrypt_user_key_stretched ⟨sampleMasterKeyBytes, none⟩ ⟨List.range 32, none⟩ [] =
      .error .InvalidMac :=
  encrypt_user_key_checks_mac ⟨sampleMasterKeyBytes, none⟩ ⟨List.range 32, none⟩ [] rfl

/-- Reduction of a failed `Except` bind. -/
theorem except_error_bind (e : ε) (f : α → Except ε β) :
    ((Except.error e : Except ε α) >>= f) = .error e := rfl

/-- Envelope roundtrip stated on a key whose MAC half is known present. -/
theorem encString_decrypt_encrypt' (b : List Nat) (key : SymmetricCryptoKey)
    (mkey iv : List Nat) (hm : key.mac_key = some mkey) (hiv : iv.length = 16) :
    (encryptAes256Hmac b mkey key.key iv).decrypt_with_key key = .ok b := by
  obtain ⟨kk, mk⟩ := key
  simp only at hm
  subst hm
  exact encString_decrypt_encrypt b mkey kk iv hiv

/-- A syntactically garbage envelope (its MAC does not verify under any key). -/
def sampleEncString : EncString := ⟨List.range 16, List.range 16, List.range 32⟩

/-- A concrete symmetric key with both halves. -/
def sampleKey : SymmetricCryptoKey :=
  ⟨(List.range 32).map (· + 1), some ((List.range 32).map (· + 100))⟩

/-- A second, distinct symmetric key with both halves. -/
def sampleKey2 : SymmetricCryptoKey :=
  ⟨(List.range 32).map (· + 11), some ((List.range 32).map (· + 200))⟩

/-- A concrete symmetric key without a MAC half. -/
def sampleKeyNoMac : SymmetricCryptoKey := ⟨(List.range 32).map (· + 1), none⟩

/-- A concrete 16-byte IV. -/
def sampleIv : List Nat := (List.range 16).map (· + 50)

/-- A concrete decrypted cipher view, parameterized by its wrapped item key. -/
def sampleCipherView (k : Option EncString) : CipherView :=
  ⟨none, none, none, [], k, "My test login", none, .Login, none, none, none, none,
   false, .None, false, true, true, none, none, none, none, 0, none, 0⟩

/-- A concrete encrypted cipher, parameterized by its wrapped item key and by
the ciphertexts of its name, notes, login and card fields. -/
def sampleCipher (k : Option EncString) : Cipher :=
  ⟨none, none, none, [], k, sampleEncString, some sampleEncString, .Login,
   some ⟨some sampleEncString, none, none⟩, none, some ⟨some sampleEncString, none⟩,
   none, false, .None, false, true, true, none, none, none, none, 0, none, 0⟩

/-- C3 (amended): when the view carries a wrapped item key,
move_to_organization fails with the vault-locked error as soon as either the
old scope's or the new organization's principal key cannot be resolved, and
the view is returned unchanged; a view without an item key performs no key
resolution at all. -/
theorem move_to_organization_locked (v : CipherView) (enc : KeyContainer) (org : Nat)
    (iv : List Nat) (wk : EncString) (hk : v.key = some wk)
    (h : enc v.organization_id = none ∨ enc (some org) = none) :
    v.move_to_organization enc org iv = (v, .error .VaultLocked) := by
  unfold CipherView.move_to_organization
  rcases h with h | h
  · simp only [hk, h]
  · cases he : enc v.organization_id with
    | none => simp only [hk, he]
    | some okey => simp only [hk, he, h]

/-- C3 witness: with an item-keyed view and a container that resolves
nothing, the move fails with the vault-locked error and the view is
unchanged. -/
theorem move_to_organization_locked_witness :
    CipherView.move_to_organization (sampleCipherView (some sampleEncString))
        (fun _ => none) 7 [] =
      (sampleCipherView (some sampleEncString), .error .VaultLocked) :=
  move_to_organization_locked (sampleCipherView (some sampleEncString))
    (fun _ => none) 7 [] sampleEncString rfl (Or.inl rfl)

/-- C3 counterexample: a view without a wrapped item key moves successfully
under a container that resolves no key at all — neither the old scope's nor
the new organization's key resolves, yet no error is returned, refuting the
claim for every CipherView. -/
theorem move_to_organization_no_key_no_error :
    (CipherView.move_to_organization (sampleCipherView none) (fun _ => none) 7 []).2 =
        .ok () ∧
    (fun _ => (none : Option SymmetricCryptoKey)) (sampleCipherView none).organization_id =
        none ∧
    (fun _ => (none : Option SymmetricCryptoKey)) (some 7) = none :=
  ⟨rfl, rfl, rfl⟩

/-- C10: when a cipher carries a wrapped item key, a failure to unwrap it —
either a decryption error on the wrapped key or an invalid length of the
unwrapped bytes — makes the whole decryption fail with that error, unlike the
per-field fail-soft policy applied after a successful unwrap. -/
theorem decrypt_fail_closed_on_item_key (c : Cipher) (key : SymmetricCryptoKey)
    (wk : EncString) (hk : c.key = some wk) :
    (∀ e, wk.decrypt_with_key key = .error e →
        c.decrypt_with_key key = .error e) ∧
    (∀ v, wk.decrypt_with_key key = .ok v → v.length ≠ 32 → v.length ≠ 64 →
        c.decrypt_with_key key = .error .InvalidKeyLen) := by
  constructor
  · intro e he
    unfold Cipher.decrypt_with_key Cipher.get_cipher_key
    simp only [hk, he, except_error_bind]
  · intro v hv h32 h64
    unfold Cipher.decrypt_with_key Cipher.get_cipher_key
    simp only [hk, hv, except_ok_bind]
    unfold SymmetricCryptoKey.fromBytes
    rw [if_neg h64, if_neg h32]
    rfl

/-- C10 witness: on a concrete cipher whose wrapped item key cannot decrypt
(the principal key has no MAC half), the whole decryption fails closed with
that error. -/
theorem decrypt_fail_closed_on_item_key_witness :
    Cipher.decrypt_with_key (sampleCipher (some sampleEncString)) sampleKeyNoMac =
      .error .InvalidMac :=
  (decrypt_fail_closed_on_item_key (sampleCipher (some sampleEncString)) sampleKeyNoMac
    sampleEncString rfl).1 .InvalidMac rfl

/-- C4: once the per-item key step has succeeded, decrypting a cipher always
returns a view — field decryption failures never surface as entity-level
errors — and each failing field independently degrades to its default: empty
string for the name, `none` for notes, login and card. -/
theorem decrypt_fields_fail_soft (c : Cipher) (key : SymmetricCryptoKey)
    (ck : Option SymmetricCryptoKey)
    (hck : Cipher.get_cipher_key key c.key = .ok ck) :
    ∃ v, c.decrypt_with_key key = .ok v ∧
      (∀ e, decryptString c.name (ck.getD key) = .error e → v.name = "") ∧
      (∀ n e, c.notes = some n → decryptString n (ck.getD key) = .error e →
        v.notes = none) ∧
      (∀ l e, c.login = some l → Login.decrypt_with_key l (ck.getD key) = .error e →
        v.login = none) ∧
      (∀ x e, c.card = some x → Card.decrypt_with_key x (ck.getD key) = .error e →
        v.card = none) := by
  unfold Cipher.decrypt_with_key
  rw [hck, except_ok_bind]
  refine ⟨_, rfl, ?_, ?_, ?_, ?_⟩
  · intro e he
    cases ck with
    | none =>
        simp only [Option.getD] at he
        simp [CipherView.remove_invalid_checksums, okOrDefault, he]
    | some k' =>
        simp only [Option.getD] at he
        simp [CipherView.remove_invalid_checksums, okOrDefault, he]
  · intro n e hn he
    cases ck with
    | none =>
        simp only [Option.getD] at he
        simp [CipherView.remove_invalid_checksums, okFlatten, decOpt, Except.map, hn, he]
    | some k' =>
        simp only [Option.getD] at he
        simp [CipherView.remove_invalid_checksums, okFlatten, decOpt, Except.map, hn, he]
  · intro l e hl he
    cases ck with
    | none =>
        simp only [Option.getD] at he
        simp [CipherView.remove_invalid_checksums, okFlatten, decOpt, Except.map, hl, he]
    | some k' =>
        simp only [Option.getD] at he
        simp [CipherView.remove_invalid_checksums, okFlatten, decOpt, Except.map, hl, he]
  · intro x e hx he
    cases ck with
    | none =>
        simp only [Option.getD] at he
        simp [CipherView.remove_invalid_checksums, okFlatten, decOpt, Except.map, hx, he]
    | some k' =>
        simp only [Option.getD] at he
        simp [CipherView.remove_invalid_checksums, okFlatten, decOpt, Except.map, hx, he]

/-- C4 witness: a concrete cipher whose name, notes, login and card
ciphertexts all fail to decrypt (the key has no MAC half) still decrypts to a
view, with those fields defaulted. -/
theorem decrypt_fields_fail_soft_witness :
    ∃ v, Cipher.decrypt_with_key (sampleCipher none) sampleKeyNoMac = .ok v ∧
      v.name = "" ∧ v.notes = none ∧ v.login = none ∧ v.card = none := by
  obtain ⟨v, hv, hname, hnotes, hlogin, hcard⟩ :=
    decrypt_fields_fail_soft (sampleCipher none) sampleKeyNoMac none rfl
  exact ⟨v, hv, hname .InvalidMac rfl, hnotes sampleEncString .InvalidMac rfl rfl,
    hlogin ⟨some sampleEncString, none, none⟩ .InvalidMac rfl rfl,
    hcard ⟨some sampleEncString, none⟩ .InvalidMac rfl rfl⟩

/-- Unwrapping a cipher's item key reduces to deserializing the envelope's
plaintext once the envelope decryption is known to succeed. -/
theorem get_cipher_key_of_decrypt (kk : SymmetricCryptoKey) (es : EncString)
    (bb : List Nat) (hdd : es.decrypt_with_key kk = .ok bb) :
    Cipher.get_cipher_key kk (some es) = (SymmetricCryptoKey.fromBytes bb).map some := by
  show es.decrypt_with_key kk >>=
    (fun dec => Except.map some (SymmetricCryptoKey.fromBytes dec)) = _
  rw [hdd, except_ok_bind]

/-- C5: if a view carrying a wrapped item key is moved to an organization
successfully, the item key unwrapped under the new organization's principal
key is the same as the one unwrapped under the old principal key — so every
field ciphertext decrypts to byte-identical plaintext before and after — and
all field contents of the view are untouched; only the wrapped key and the
organization id change. -/
theorem move_to_organization_preserves_content
    (v v' : CipherView) (enc : KeyContainer) (org : Nat) (iv : List Nat) (wk : EncString)
    (hk : v.key = some wk) (hiv : iv.length = 16)
    (hmove : v.move_to_organization enc org iv = (v', .ok ())) :
    ∃ okey nkey, enc v.organization_id = some okey ∧ enc (some org) = some nkey ∧
      Cipher.get_cipher_key nkey v'.key = Cipher.get_cipher_key okey v.key ∧
      v'.organization_id = some org ∧ v'.name = v.name ∧ v'.notes = v.notes ∧
      v'.login = v.login ∧ v'.identity = v.identity ∧ v'.card = v.card ∧
      v'.secure_note = v.secure_note ∧ v'.attachments = v.attachments ∧
      v'.fields = v.fields ∧ v'.password_history = v.password_history := by
  unfold CipherView.move_to_organization at hmove
  cases ho : enc v.organization_id with
  | none =>
      simp only [hk, ho] at hmove
      injection hmove with _ hbad
      exact Except.noConfusion hbad
  | some okey =>
      cases hn : enc (some org) with
      | none =>
          simp only [hk, ho, hn] at hmove
          injection hmove with _ hbad
          exact Except.noConfusion hbad
      | some nkey =>
          cases hd : wk.decrypt_with_key okey with
          | error e =>
              simp only [hk, ho, hn, hd] at hmove
              injection hmove with _ hbad
              exact Except.noConfusion hbad
          | ok b =>
              cases hm : nkey.mac_key with
              | none =>
                  simp only [hk, ho, hn, hd, encryptBytesWithKey, hm] at hmove
                  injection hmove with _ hbad
                  exact Except.noConfusion hbad
              | some nm =>
                  simp only [hk, ho, hn, hd, encryptBytesWithKey, hm] at hmove
                  injection hmove with hv' hok
                  subst hv'
                  refine ⟨okey, nkey, rfl, rfl, ?_, rfl, rfl, rfl, rfl, rfl, rfl,
                    rfl, rfl, rfl, rfl⟩
                  dsimp only
                  rw [hk, get_cipher_key_of_decrypt nkey _ b
                      (encString_decrypt_encrypt' b nkey nm iv hm hiv),
                    get_cipher_key_of_decrypt okey wk b hd]

/-- The unwrapped item key bytes of the re-keying witness. -/
def sampleItemKeyBytes : List Nat := (List.range 64).map (· + 3)

/-- The witness's wrapped item key: the item key bytes enveloped under the
user-scope key. -/
def sampleWrappedKey : EncString :=
  encryptAes256Hmac sampleItemKeyBytes ((List.range 32).map (· + 100)) sampleKey.key sampleIv

/-- A container resolving the user scope to one key and organization 7 to
another. -/
def sampleContainer : KeyContainer := fun o =>
  match o with
  | none => some sampleKey
  | some o' => if o' = 7 then some sampleKey2 else none

/-- C5 witness: a concrete item-keyed view moved to organization 7 succeeds,
and the item key resolved through the new organization key coincides with the
one resolved through the old user key. -/
theorem move_to_organization_preserves_content_witness :
    ∃ v', CipherView.move_to_organization (sampleCipherView (some sampleWrappedKey))
        sampleContainer 7 sampleIv = (v', .ok ()) ∧
      ∃ okey nkey,
        sampleContainer (sampleCipherView (some sampleWrappedKey)).organization_id =
          some okey ∧
        sampleContainer (some 7) = some nkey ∧
        Cipher.get_cipher_key nkey v'.key =
          Cipher.get_cipher_key okey (sampleCipherView (some sampleWrappedKey)).key ∧
        v'.organization_id = some 7 ∧
        v'.name = (sampleCipherView (some sampleWrappedKey)).name ∧
        v'.notes = (sampleCipherView (some sampleWrappedKey)).notes ∧
        v'.login = (sampleCipherView (some sampleWrappedKey)).login ∧
        v'.identity = (sampleCipherView (some sampleWrappedKey)).identity ∧
        v'.card = (sampleCipherView (some sampleWrappedKey)).card ∧
        v'.secure_note = (sampleCipherView (some sampleWrappedKey)).secure_note ∧
        v'.attachments = (sampleCipherView (some sampleWrappedKey)).attachments ∧
        v'.fields = (sampleCipherView (some sampleWrappedKey)).fields ∧
        v'.password_history = (sampleCipherView (some sampleWrappedKey)).password_history := by
  have hd : sampleWrappedKey.decrypt_with_key sampleKey = .ok sampleItemKeyBytes :=
    encString_decrypt_encrypt' sampleItemKeyBytes sampleKey
      ((List.range 32).map (· + 100)) sampleIv rfl (by decide)
  have hmove : CipherView.move_to_organization (sampleCipherView (some sampleWrappedKey))
      sampleContainer 7 sampleIv =
      ({ sampleCipherView (some sampleWrappedKey) with
          key := some (encryptAes256Hmac sampleItemKeyBytes
            ((List.range 32).map (· + 200)) sampleKey2.key sampleIv),
          organization_id := some 7 }, .ok ()) := by
    unfold CipherView.move_to_organization
    have h1 : (sampleCipherView (some sampleWrappedKey)).key = some sampleWrappedKey := rfl
    have h2 : sampleContainer (sampleCipherView (some sampleWrappedKey)).organization_id =
        some sampleKey := rfl
    have h3 : sampleContainer (some 7) = some sampleKey2 := rfl
    have h4 : encryptBytesWithKey sampleItemKeyBytes sampleKey2 sampleIv =
        .ok (encryptAes256Hmac sampleItemKeyBytes ((List.range 32).map (· + 200))
          sampleKey2.key sampleIv) := rfl
    simp only [h1, h2, h3, hd, h4]
  exact ⟨_, hmove, move_to_organization_preserves_content _ _ sampleContainer 7 sampleIv
    sampleWrappedKey rfl (by decide) hmove⟩

/-- On ASCII text the UTF-8 byte length equals the character count. -/
theorem utf8Len_ascii (s : List Char) (h : ∀ c ∈ s, charLen c = 1) :
    utf8Len s = s.length := by
  induction s with
  | nil => rfl
  | cons c cs ih =>
      have hc := h c (List.mem_cons_self c cs)
      have ih' := ih (fun c' hc' => h c' (List.mem_cons_of_mem c hc'))
      simp only [utf8Len, List.map_cons, List.sum_cons, List.length_cons] at *
      omega

/-- On ASCII text every byte index within the string is a character
boundary, so prefix byte-slicing never panics. -/
theorem byteTake_ascii (s : List Char) (h : ∀ c ∈ s, charLen c = 1) :
    ∀ k, k ≤ s.length → ∃ t, byteTake s k = some t := by
  induction s with
  | nil =>
      intro k hk
      cases k with
      | zero => exact ⟨[], rfl⟩
      | succ k' => simp at hk
  | cons c cs ih =>
      intro k hk
      cases k with
      | zero => exact ⟨[], rfl⟩
      | succ k' =>
          have hc := h c (List.mem_cons_self c cs)
          obtain ⟨t, ht⟩ := ih (fun c' hc' => h c' (List.mem_cons_of_mem c hc')) k'
            (by simp only [List.length_cons] at hk; omega)
          refine ⟨c :: t, ?_⟩
          simp only [byteTake]
          rw [if_pos (by omega), hc, Nat.add_sub_cancel, ht]
          rfl

/-- On ASCII text every byte index within the string is a character
boundary, so suffix byte-slicing never panics. -/
theorem byteSliceFrom_ascii (s : List Char) (h : ∀ c ∈ s, charLen c = 1) :
    ∀ k, k ≤ s.length → ∃ t, byteSliceFrom s k = some t := by
  induction s with
  | nil =>
      intro k hk
      cases k with
      | zero => exact ⟨[], rfl⟩
      | succ k' => simp at hk
  | cons c cs ih =>
      intro k hk
      cases k with
      | zero => exact ⟨c :: cs, rfl⟩
      | succ k' =>
          have hc := h c (List.mem_cons_self c cs)
          obtain ⟨t, ht⟩ := ih (fun c' hc' => h c' (List.mem_cons_of_mem c hc')) k'
            (by simp only [List.length_cons] at hk; omega)
          refine ⟨t, ?_⟩
          simp only [byteSliceFrom]
          rw [if_pos (by omega), hc, Nat.add_sub_cancel, ht]

/-- C9 (amended): for every decrypted card number whose characters are all
single-byte (ASCII) — in particular every digit string — and whose length
exceeds 4, the subtitle builder stays within character boundaries and returns
a subtitle; the Amex prefix inspection and the trailing-digit slice are safe
under the length filter only for such strings. -/
theorem build_subtitle_card_ascii_total (brand : Option String) (n : String)
    (hascii : ∀ c ∈ n.data, charLen c = 1) (hlen : 4 < n.data.length) :
    ∃ s, build_subtitle_card brand (some n) = some s := by
  have hl := utf8Len_ascii n.data hascii
  have hcond : 4 < utf8Len n.data := by omega
  obtain ⟨f2, hf2⟩ := byteTake_ascii n.data hascii 2 (by omega)
  obtain ⟨tl, htl⟩ := byteSliceFrom_ascii n.data hascii
    (utf8Len n.data - (if f2 = ['3', '4'] ∨ f2 = ['3', '7'] then 5 else 4))
    (hl ▸ Nat.sub_le _ _)
  simp only [build_subtitle_card, hcond, if_true, hf2, htl]
  exact ⟨_, rfl⟩

/-- C9 witness: a five-digit ASCII card number produces a subtitle. -/
theorem build_subtitle_card_ascii_total_witness :
    ∃ s, build_subtitle_card none (some (String.mk ['1', '2', '3', '4', '5'])) = some s :=
  build_subtitle_card_ascii_total none (String.mk ['1', '2', '3', '4', '5'])
    (by decide) (by decide)

/-- C9 counterexample: a card number of five euro signs has byte length 15 and
character length 5 — both above the filter threshold of 4 — yet the builder
hits a non-boundary byte index in `&number[0..2]` and panics (modelled as
`none`), refuting the claim for every string of length greater than 4. -/
theorem build_subtitle_card_panics_on_multibyte :
    build_subtitle_card none (some (String.mk ['€', '€', '€', '€', '€'])) = none ∧
    4 < utf8Len (String.mk ['€', '€', '€', '€', '€']).data ∧
    4 < (String.mk ['€', '€', '€', '€', '€']).data.length := by
  decide
